import Mathlib

/-!
# Verification of livetree core algorithms

A shallow embedding, in Lean 4, of the core pure algorithms of the
`livetree` terminal application (a live directory-tree viewer written in
Rust), together with proofs of the behavioural properties stated in its
design specification.

Conventions of the embedding:

* Rust `char` is Lean `Char`; Rust `String`/`&str` values are represented
  as `List Char` (so that per-character reasoning is direct); where byte
  offsets matter (`src/main.rs::truncate_middle`) the UTF-8 byte sequence
  is modelled explicitly as `List Nat`.
* `PathBuf` is represented as its list of components, `List (List Char)`.
* `std::time::Instant` and `Duration` are represented as `Nat` (an instant
  is a point on the monotonic clock; `Instant::duration_since` saturates,
  which is Nat subtraction).
* Rust `usize` arithmetic uses `Nat` with explicit saturation at
  `2 ^ 64 - 1` where the code uses `saturating_add` / a `usize::MAX`
  sentinel.
* `HashMap` / `HashSet` are represented as association lists / lists of
  keys (one binding per key).
-/

namespace LiveTree

/-! ## Control characters and the sanitizer (`src/render.rs`)

`sanitize_terminal_text` (src/render.rs lines 30-49) walks the characters
of its input and replaces newline, carriage return and tab by the literal
two-character escape tokens, and every other control character by a hex
escape token.  Rust's `char::is_control` tests for the Unicode `Cc`
category, i.e. U+0000..U+001F and U+007F..U+009F. -/

/-- Model of Rust `char::is_control`: the Unicode `Cc` category. -/
def isCtrlChar (c : Char) : Bool :=
  decide (c.toNat < 0x20) || (decide (0x7F ≤ c.toNat) && decide (c.toNat ≤ 0x9F))

/-- Upper-case hexadecimal digit for `n < 16`, as produced by Rust's
`{:02X}` / `{:X}` format specifiers. -/
def hexDigit (n : Nat) : Char :=
  if n < 10 then Char.ofNat (48 + n) else Char.ofNat (55 + n)

/-- Upper-case hexadecimal representation of `n` (no leading zeros),
as produced by Rust's `{:X}`. -/
def hexStr (n : Nat) : List Char :=
  if _h : n < 16 then [hexDigit n]
  else hexStr (n / 16) ++ [hexDigit (n % 16)]
termination_by n
decreasing_by exact Nat.div_lt_self (by omega) (by omega)

/-- The token that `sanitize_terminal_text` (src/render.rs lines 32-46)
emits for one input character: `\n`, `\r` and `\t` become literal escape
tokens, any other control character becomes a hex escape token
(`\xNN` for code points up to `0xFF`, `\u{...}` above), and every
non-control character is passed through unchanged. -/
def sanitizeChar (c : Char) : List Char :=
  if c = '\n' then ['\\', 'n']
  else if c = '\r' then ['\\', 'r']
  else if c = '\t' then ['\\', 't']
  else if isCtrlChar c then
    if c.toNat ≤ 0xFF then
      ['\\', 'x', hexDigit (c.toNat / 16), hexDigit (c.toNat % 16)]
    else
      ['\\', 'u', '\x7b'] ++ hexStr c.toNat ++ ['\x7d']
  else [c]

/-- Model of `sanitize_terminal_text` (src/render.rs lines 30-49). -/
def sanitize_terminal_text (input : List Char) : List Char :=
  (input.map sanitizeChar).flatten

/-! ## Tree entries and the render pipeline (`src/render.rs`) -/

/-- Model of `TreeEntry` (src/src/tree/mod.rs lines 14-33).  The field
`pfx` models the Rust field `prefix` (the precomputed box-drawing
string). -/
structure TreeEntry where
  name : List Char
  path : List (List Char)
  depth : Nat
  is_dir : Bool
  is_symlink : Bool
  symlink_target : Option (List Char)
  is_last : Bool
  pfx : List Char
  error : Option (List Char)
deriving DecidableEq

/-- Model of `entry_to_line` (src/render.rs lines 64-127), keeping the
text content of each emitted `Span` (styles carry no text and are
dropped).  The result is the list of span contents of the rendered
line, in order. -/
def entry_to_line (e : TreeEntry) (use_color : Bool)
    (changed_paths : List (List (List Char))) : List (List Char) :=
  let is_changed := use_color && changed_paths.contains e.path
  let safe_name := sanitize_terminal_text e.name
  let pfx_spans : List (List Char) := if e.pfx = [] then [] else [e.pfx]
  let body : List (List Char) :=
    if is_changed then
      [safe_name] ++
        (if e.is_symlink then
          match e.symlink_target with
          | some t => [[' ', '-', '>', ' '] ++ sanitize_terminal_text t]
          | none => []
        else [])
    else
      match e.error with
      | some err =>
          [safe_name ++ [' ', '['] ++ sanitize_terminal_text err ++ [']']]
      | none =>
          if e.is_symlink then
            [safe_name] ++
              (match e.symlink_target with
              | some t => [[' ', '-', '>', ' '] ++ sanitize_terminal_text t]
              | none => [])
          else if e.is_dir then [safe_name]
          else [safe_name]
  pfx_spans ++ body

/-- Model of `status_bar_line` (src/render.rs lines 138-161): the text
content of the status bar. -/
def status_bar_line (watched_path entry_info : List Char)
    (last_change : Option (List Char)) : List Char :=
  let change_text :=
    match last_change with
    | some ts => "Last change: ".toList ++ sanitize_terminal_text ts
    | none => "No changes yet".toList
  " Watching: ".toList ++ sanitize_terminal_text watched_path ++
    "  |  ".toList ++ sanitize_terminal_text entry_info ++
    "  |  ".toList ++ change_text

/-! ## Scroll state (`src/event_loop.rs` lines 20-65)

`ScrollState` owns the viewport offset.  `offset` and `total_lines` are
Rust `usize` values; `scroll_end` stores the `usize::MAX` sentinel and
`scroll_down` uses `saturating_add`, so the embedding saturates at
`USIZE_MAX`.  `scroll_up` uses `saturating_sub`, which is `Nat`
subtraction. -/

/-- The value `usize::MAX` on a 64-bit target. -/
def USIZE_MAX : Nat := 2 ^ 64 - 1

/-- Model of `ScrollState` (src/event_loop.rs lines 20-24). -/
structure ScrollState where
  offset : Nat
  total_lines : Nat
deriving DecidableEq

namespace ScrollState

/-- Model of `ScrollState::new`. -/
def new : ScrollState := ⟨0, 0⟩

/-- Model of `ScrollState::update_total_and_clamp`
(src/event_loop.rs lines 34-44). -/
def update_total_and_clamp (s : ScrollState) (total_lines view_height : Nat) :
    ScrollState :=
  if total_lines > view_height then
    let max_scroll := total_lines - view_height
    if s.offset > max_scroll then ⟨max_scroll, total_lines⟩
    else ⟨s.offset, total_lines⟩
  else
    ⟨0, total_lines⟩

/-- Model of `ScrollState::scroll_up` (saturating subtraction). -/
def scroll_up (s : ScrollState) (n : Nat) : ScrollState :=
  { s with offset := s.offset - n }

/-- Model of `ScrollState::scroll_down` (saturating addition on `usize`). -/
def scroll_down (s : ScrollState) (n : Nat) : ScrollState :=
  { s with offset := min (s.offset + n) USIZE_MAX }

/-- Model of `ScrollState::scroll_home`. -/
def scroll_home (s : ScrollState) : ScrollState := { s with offset := 0 }

/-- Model of `ScrollState::scroll_end`: stores the `usize::MAX` sentinel,
resolved by the next clamp. -/
def scroll_end (s : ScrollState) : ScrollState := { s with offset := USIZE_MAX }

end ScrollState

/-! ## Highlight tracker (`src/highlight.rs`)

The tracker state is a map from path to last-touch instant together with
the TTL duration.  The map is modelled as an association list with one
binding per key (the `HashMap` invariant); instants and durations are
`Nat` (`Instant::duration_since` saturates, i.e. `Nat` subtraction).

The copy of `src/highlight.rs` in this snapshot hard-codes the TTL as the
constant `HIGHLIGHT_DURATION` and has no duration field, but its caller
`src/event_loop.rs` (lines 101, 343-368) constructs the tracker with
`HighlightTracker::new(Duration::from_secs(3))` and adjusts it at runtime
with `set_duration`; the revision of the tracker with the mutable
duration field is not present under `src/`.  The `duration` field and
`set_duration` are therefore modelled from the spec ("mapping path →
last-touch instant, plus a mutable TTL duration"; "`set_duration(d)`:
runtime-adjustable"); `insert`, `active_set` and `clear` follow
`src/highlight.rs` lines 23-37 with the constant generalized to the
field. -/

/-- Model of `HighlightTracker` state: path ↦ last-touch instant, plus
the TTL duration (see the section comment above: the duration field is
modelled from the spec, the entries map from `src/highlight.rs`). -/
structure HighlightTracker where
  entries : List (List (List Char) × Nat)
  duration : Nat
deriving DecidableEq

namespace HighlightTracker

/-- Model of `HighlightTracker::new` as called by the event loop
(`HighlightTracker::new(Duration::from_secs(3))`). -/
def new (d : Nat) : HighlightTracker := ⟨[], d⟩

/-- Model of `HighlightTracker::insert` (src/highlight.rs lines 23-25):
`HashMap::insert` is an upsert, so any previous binding of the same path
is replaced. -/
def insert (t : HighlightTracker) (p : List (List Char)) (now : Nat) :
    HighlightTracker :=
  ⟨(p, now) :: t.entries.filter (fun e => e.1 != p), t.duration⟩

/-- Model of `HighlightTracker::active_set` (src/highlight.rs lines
28-32): retain the entries whose age is strictly below the duration
(pruning is a side effect of the query), and return the retained keys.
The first component is the tracker after pruning, the second the active
set. -/
def active_set (t : HighlightTracker) (now : Nat) :
    HighlightTracker × List (List (List Char)) :=
  let kept := t.entries.filter (fun e => decide (now - e.2 < t.duration))
  (⟨kept, t.duration⟩, kept.map (fun e => e.1))

/-- Modelled from the spec: `set_duration(d)` ("runtime-adjustable;
`d = 0` disables highlighting").  The method is called by
src/event_loop.rs lines 343-368 but its definition is missing from the
copy of `src/highlight.rs` in this snapshot. -/
def set_duration (t : HighlightTracker) (d : Nat) : HighlightTracker :=
  ⟨t.entries, d⟩

/-- Model of `HighlightTracker::clear` (src/highlight.rs lines 35-37). -/
def clear (t : HighlightTracker) : HighlightTracker := ⟨[], t.duration⟩

end HighlightTracker

/-! ## Tree snapshot and the `max_entries` cap (`src/tree/mod.rs`)

`TreeSnapshot` (src/src/tree/mod.rs lines 53-59) pairs the retained
entries with the total count discovered before the cap.  In this
snapshot of the repository, `walk.rs::build_tree` returns the full
entry list and never reads `config.max_entries`, while
`WalkdirTreeBuilder::build_tree` (mod.rs lines 76-80) is declared to
return a `TreeSnapshot`; the code that applies the cap and fills
`total_entries` is not present under `src/`. -/

/-- Model of `TreeSnapshot` (src/src/tree/mod.rs lines 53-59). -/
structure TreeSnapshot where
  entries : List TreeEntry
  total_entries : Nat
deriving DecidableEq

/-- Modelled from the spec: the truncation step of the tree builder
("`max_entries`: when set, only the first N entries (in final order) are
retained in `entries`, but `total_entries` reflects the true discovered
count").  `discovered` is the full entry list in final order produced by
the walk; the step is missing from `src/` (walk.rs's `build_tree` never
reads `config.max_entries`). -/
def build_snapshot (discovered : List TreeEntry) (max_entries : Option Nat) :
    TreeSnapshot :=
  { entries :=
      match max_entries with
      | some n => discovered.take n
      | none => discovered,
    total_entries := discovered.length }

/-! ## Sibling ordering (`src/tree/walk.rs` lines 158-188) -/

/-- The data of a `walkdir::DirEntry` that `sort_cmp` reads. -/
structure DirEntryInfo where
  is_dir : Bool
  name : List Char
deriving DecidableEq

/-- Rust `str::starts_with('.')`. -/
def startsWithDot (s : List Char) : Bool :=
  match s with
  | [] => false
  | c :: _ => c == '.'

/-- Lexicographic comparison of two strings, Rust `Ord` on `str`
(byte-wise comparison of the UTF-8 encodings orders strings exactly by
code point, which is the `Char` order used here). -/
def cmpChars : List Char → List Char → Ordering
  | [], [] => .eq
  | [], _ :: _ => .lt
  | _ :: _, [] => .gt
  | a :: as, b :: bs =>
      if a < b then .lt else if b < a then .gt else cmpChars as bs

/-- Model of `sort_cmp` (src/src/tree/walk.rs lines 158-188),
parametrized by the lowercasing function.  `str::to_lowercase` is an
external Rust standard-library function performing full Unicode
lowercasing (including one-to-many mappings), so — like the compiled
user globs of the ignore set — it is modelled as an abstract
string-to-string function `lower`; the comparator itself is embedded
exactly: directories before files; within equal kind dotfiles last;
otherwise lexicographic comparison of the lowercased names. -/
def sort_cmp_with (lower : List Char → List Char) (a b : DirEntryInfo) :
    Ordering :=
  if a.is_dir != b.is_dir then
    if a.is_dir then .lt else .gt
  else if startsWithDot a.name != startsWithDot b.name then
    if startsWithDot a.name then .gt else .lt
  else
    cmpChars (lower a.name) (lower b.name)

/-- ASCII-only character-wise lowercasing (`Char.toLower`): an
executable stand-in for `str::to_lowercase`, used only to instantiate
the walk model's comparator below.  It is not a faithful model of full
Unicode lowercasing (non-ASCII capitals are left unchanged), which is
why the sibling-ordering theorem quantifies over the lowercasing
function instead of fixing this one. -/
def asciiLower (s : List Char) : List Char := s.map Char.toLower

/-- The executable comparator instance used by the walk model
(`WalkDir::sort_by(sort_cmp)`).  The walk theorems are membership-only
and insensitive to the child order, so the ASCII stand-in is harmless
there. -/
def sort_cmp (a b : DirEntryInfo) : Ordering :=
  sort_cmp_with asciiLower a b

/-! ## Layout: `is_last` assignment (`src/tree/layout.rs` lines 34-49)

`is_last_sibling(raw, i)` scans forward from index `i` over the depth
annotations of the flattened pre-order sequence: the first later entry
with equal depth means "not last", the first later entry with smaller
depth means "last", and reaching the end means "last".  Only the depth
column of the raw tuples is relevant, so the embedding works on
`List Nat`. -/

/-- The forward scan of `is_last_sibling` over the suffix that follows
entry `i`, parametrized by the depth `d` of entry `i`
(src/src/tree/layout.rs lines 37-48). -/
def isLastFrom (d : Nat) : List Nat → Bool
  | [] => true
  | x :: rest =>
      if x = d then false
      else if x < d then true
      else isLastFrom d rest

/-- Model of `is_last_sibling` (src/src/tree/layout.rs lines 34-49) on
the depth column of the raw entry sequence. -/
def is_last_sibling (depths : List Nat) (i : Nat) : Bool :=
  isLastFrom (depths.getD i 0) (depths.drop (i + 1))

/-- Two indices of the flattened pre-order sequence belong to the same
sibling group (spec glossary: "the set of entries sharing one parent
directory") iff they carry the same depth and no entry strictly between
them has a smaller depth (a smaller depth closes the parent's scope). -/
def sameGroup (depths : List Nat) (i j : Nat) : Prop :=
  i < depths.length ∧ j < depths.length ∧
    depths.getD i 0 = depths.getD j 0 ∧
    ∀ k < max i j, min i j < k → depths.getD i 0 ≤ depths.getD k 0

instance (depths : List Nat) (i j : Nat) : Decidable (sameGroup depths i j) := by
  unfold sameGroup; exact inferInstance

/-! ## The entry-collection loop of `build_tree` (`src/tree/walk.rs` lines 91-150)

`build_tree` iterates the (already filtered and sorted) `walkdir`
results: an `Ok` item at non-root depth becomes a raw entry, an `Err`
item at non-root depth becomes a synthetic error entry, and root-depth
items are skipped.  The iterator is modelled as the list of items it
yields. -/

/-- One item yielded by the filtered `walkdir` iterator: either a
directory entry (with symlink-target resolution already performed, as
`std::fs::read_link` is I/O) or a traversal error carrying the depth,
the offending path if known, and the error message. -/
inductive WalkItem where
  | ok (depth : Nat) (name : List Char) (path : List (List Char))
      (is_dir is_symlink : Bool) (symlink_target : Option (List Char))
  | err (depth : Nat) (path : Option (List (List Char))) (msg : List Char)
deriving DecidableEq

/-- The raw-entry tuple collected by `build_tree`
(src/src/tree/walk.rs lines 9-17). -/
structure RawEntry where
  depth : Nat
  name : List Char
  path : List (List Char)
  is_dir : Bool
  is_symlink : Bool
  symlink_target : Option (List Char)
  error : Option (List Char)
deriving DecidableEq

/-- The body of `build_tree`'s collection loop for one iterator item
(src/src/tree/walk.rs lines 91-150): `none` models `continue`.  In the
error branch the path defaults to the empty path (`unwrap_or_default`)
and the name to `"???"` when the path has no final component. -/
def process_item (dirs_only : Bool) : WalkItem → Option RawEntry
  | .ok depth name path is_dir is_symlink symlink_target =>
      if depth = 0 then none
      else if dirs_only && !is_dir then none
      else some ⟨depth, name, path, is_dir, is_symlink,
        if is_symlink then symlink_target else none, none⟩
  | .err depth pathOpt msg =>
      if depth = 0 then none
      else
        let path := pathOpt.getD []
        let name := path.getLast?.getD "???".toList
        some ⟨depth, name, path, true, false, none, some msg⟩

/-- The collection loop of `build_tree` over the whole iterator
(src/src/tree/walk.rs lines 91-150). -/
def collect_entries (dirs_only : Bool) (items : List WalkItem) : List RawEntry :=
  items.filterMap (process_item dirs_only)

/-! ## Title truncation (`src/main.rs` lines 118-138)

`truncate_middle` computes `input.len()` (the UTF-8 **byte** length),
derives `prefix_len` and `suffix_len` from it, and slices the string at
those **byte** offsets (`&input[..prefix_len]`,
`&input[input.len() - suffix_len..]`).  Rust panics when a string is
sliced at an index that is not a character boundary.  The embedding
works on the UTF-8 byte sequence and returns `none` exactly when the
Rust code would panic. -/

/-- UTF-8 encoding of one scalar value. -/
def utf8Bytes (c : Char) : List Nat :=
  let n := c.toNat
  if n < 0x80 then [n]
  else if n < 0x800 then [0xC0 + n / 64, 0x80 + n % 64]
  else if n < 0x10000 then
    [0xE0 + n / 4096, 0x80 + n / 64 % 64, 0x80 + n % 64]
  else
    [0xF0 + n / 262144, 0x80 + n / 4096 % 64, 0x80 + n / 64 % 64,
      0x80 + n % 64]

/-- The UTF-8 byte sequence of a string. -/
def strBytes (s : List Char) : List Nat := (s.map utf8Bytes).flatten

/-- Rust `str::is_char_boundary`: index 0 and the total length are
boundaries, any other index must be in range and must not point at a
UTF-8 continuation byte (`0x80..0xBF`). -/
def is_char_boundary (bs : List Nat) (i : Nat) : Bool :=
  if i = 0 then true
  else if i = bs.length then true
  else if bs.length < i then false
  else !(decide (0x80 ≤ bs.getD i 0) && decide (bs.getD i 0 < 0xC0))

/-- Model of `truncate_middle` (src/main.rs lines 118-138) on the UTF-8
bytes of the input.  `some` is the byte sequence of the returned string;
`none` models the panic that Rust raises when `&input[..prefix_len]` or
`&input[input.len() - suffix_len..]` slices at a non-boundary byte
offset.  `46` is the byte of `.`. -/
def truncate_middle (input : List Char) (max_cols : Nat) : Option (List Nat) :=
  let bs := strBytes input
  if bs.length ≤ max_cols then some bs
  else if max_cols = 0 then some []
  else if max_cols ≤ 3 then some (List.replicate max_cols 46)
  else
    let keep := max_cols - 3
    let pfx_len := keep / 2 + keep % 2
    let sfx_len := keep / 2
    if is_char_boundary bs pfx_len &&
        is_char_boundary bs (bs.length - sfx_len) then
      some (bs.take pfx_len ++ [46, 46, 46] ++
        bs.drop (bs.length - sfx_len))
    else none

/-! ## Ignore globs and the filtered walk (`src/tree/walk.rs` lines 19-89)

`build_ignore_set` (walk.rs lines 23-51) compiles the four built-in
default patterns `.git`, `node_modules`, `__pycache__`, `.DS_Store` plus
the user's patterns into a `globset::GlobSet`; `build_tree` (lines
54-89) then prunes the `walkdir` traversal with `filter_entry`: the root
(depth 0) always passes, a hidden name is rejected unless `show_hidden`,
and an entry whose path **relative to the root** is matched by the glob
set is rejected (rejecting an entry prunes its whole subtree).

The `globset` library is external; a compiled glob is modelled as a
predicate on root-relative paths (lists of components).  A glob matches
against the *entire* path (globset is full-path matching, not per
component).  The default patterns contain no glob metacharacters, so
each compiles to a literal matcher: it matches exactly the relative path
whose single rendering with `/` separators equals the pattern text. -/

/-- A filesystem tree: a named node, a directory flag, and children
(empty for non-directories). -/
inductive FsTree where
  | node (name : List Char) (is_dir : Bool) (children : List FsTree)

/-- The name of an `FsTree` node. -/
def FsTree.nameOf : FsTree → List Char
  | .node n _ _ => n

/-- The directory flag of an `FsTree` node. -/
def FsTree.isDirOf : FsTree → Bool
  | .node _ d _ => d

/-- The children of an `FsTree` node. -/
def FsTree.childrenOf : FsTree → List FsTree
  | .node _ _ cs => cs

mutual
/-- Height of a filesystem tree; used as the recursion fuel of the walk
(the walk visits one level per fuel unit, so `height` fuel traverses the
whole tree). -/
def FsTree.height : FsTree → Nat
  | .node _ _ cs => 1 + FsTree.heightList cs
/-- Maximum height over a list of trees. -/
def FsTree.heightList : List FsTree → Nat
  | [] => 0
  | t :: ts => max (FsTree.height t) (FsTree.heightList ts)
end

/-- A path rendered with `/` separators, as `globset` sees it. -/
def pathString (p : List (List Char)) : List Char :=
  match p with
  | [] => []
  | [c] => c
  | c :: rest => c ++ '/' :: pathString rest

/-- The compiled form of a literal glob pattern (no metacharacters):
matches exactly the path whose rendering equals the pattern text. -/
def litGlob (pat : List Char) (p : List (List Char)) : Bool :=
  pathString p == pat

/-- The list `DEFAULT_IGNORES` (src/src/tree/walk.rs line 19). -/
def DEFAULT_IGNORES : List (List Char) :=
  [".git".toList, "node_modules".toList, "__pycache__".toList,
    ".DS_Store".toList]

/-- Model of `build_ignore_set` (src/src/tree/walk.rs lines 23-51): the
compiled glob set contains the four literal default matchers followed by
the user's compiled globs.  Compiled user globs are opaque path
predicates (invalid user patterns are skipped by the Rust code before
compilation, so `user` holds exactly the globs that compiled). -/
def build_ignore_set (user : List (List (List Char) → Bool)) :
    List (List (List Char) → Bool) :=
  DEFAULT_IGNORES.map litGlob ++ user

/-- Model of `GlobSet::is_match`: some glob of the set matches the path. -/
def matchesIgnore (globs : List (List (List Char) → Bool))
    (p : List (List Char)) : Bool :=
  globs.any (fun g => g p)

/-- The configuration data read by the traversal
(src/src/tree/mod.rs lines 36-50, without `follow_symlinks` and
`max_entries`, which the modelled walk does not read; the model
filesystem has no symlinks). -/
structure WalkConfig where
  max_depth : Option Nat
  show_hidden : Bool
  dirs_only : Bool
  ignore_patterns : List (List (List Char) → Bool)

/-- Model of the `filter_entry` closure (src/src/tree/walk.rs lines
70-89) for an entry at depth ≥ 1 with the given name and root-relative
path: hidden names are rejected unless `show_hidden`, then the relative
path is tested against the glob set.  (The depth-0 root is handled by
the walk itself, which never filters it.) -/
def filter_entry (cfg : WalkConfig) (name : List Char)
    (relPath : List (List Char)) : Bool :=
  if !cfg.show_hidden && startsWithDot name then false
  else if matchesIgnore cfg.ignore_patterns relPath then false
  else true

/-- One entry produced by the modelled walk: depth, name, root-relative
path, directory flag. -/
structure WalkEntry where
  depth : Nat
  name : List Char
  relPath : List (List Char)
  is_dir : Bool
deriving DecidableEq

/-- Whether `walkdir` descends below the given depth under the
`max_depth` option (`WalkDir::max_depth`: entries deeper than the bound
are not yielded). -/
def depthOk (cfg : WalkConfig) (depth : Nat) : Bool :=
  match cfg.max_depth with
  | some m => decide (depth < m)
  | none => true

/-- Insertion of a node into a child list sorted by `sort_cmp`
(`WalkDir::sort_by(sort_cmp)` sorts the children of each directory). -/
def insertSorted (x : FsTree) : List FsTree → List FsTree
  | [] => [x]
  | y :: ys =>
      if sort_cmp ⟨x.isDirOf, x.nameOf⟩ ⟨y.isDirOf, y.nameOf⟩ = .gt then
        y :: insertSorted x ys
      else x :: y :: ys

/-- The children of a directory in the order `walkdir` yields them
(sorted by `sort_cmp`). -/
def sortChildren (l : List FsTree) : List FsTree :=
  l.foldr insertSorted []

/-- The filtered, sorted, depth-bounded pre-order walk of
`WalkDir::new(root).sort_by(sort_cmp)` with the `filter_entry` closure
of `build_tree` (src/src/tree/walk.rs lines 55-89): yield the current
node, then, if it is a directory within the depth bound, recurse into
its sorted children, dropping (with its whole subtree) every child that
the filter rejects.  `fuel` bounds the recursion depth; `FsTree.height`
of the root is enough fuel to traverse everything. -/
def walk_node (cfg : WalkConfig) : Nat → Nat → List (List Char) → FsTree →
    List WalkEntry
  | 0, _, _, _ => []
  | fuel + 1, depth, relPath, .node name is_dir children =>
      ⟨depth, name, relPath, is_dir⟩ ::
      (if is_dir && depthOk cfg depth then
        ((sortChildren children).map (fun c =>
          if filter_entry cfg c.nameOf (relPath ++ [c.nameOf]) then
            walk_node cfg fuel (depth + 1) (relPath ++ [c.nameOf]) c
          else [])).flatten
      else [])

/-- Model of `build_tree`'s traversal and collection
(src/src/tree/walk.rs lines 54-150) on a model filesystem: walk from the
root, then drop the root itself (depth 0) and, under `dirs_only`,
non-directories, exactly as the collection loop does.  (The layout pass
and the error branch of the loop are modelled separately; the model
filesystem raises no I/O errors.) -/
def build_tree (cfg : WalkConfig) (root : FsTree) : List WalkEntry :=
  (walk_node cfg root.height 0 [] root).filter
    (fun e => decide (e.depth ≠ 0) && (!cfg.dirs_only || e.is_dir))

/-- Initial-segment relation on paths: `q` is an initial segment of `p`
(the ancestor relation on root-relative paths). -/
def leadsTo (q p : List (List Char)) : Prop :=
  ∃ r, q ++ r = p

/-- A string free of raw control characters. -/
def ctrlFree (s : List Char) : Prop :=
  ∀ c ∈ s, isCtrlChar c = false

/-!
# Theorems
-/

/-! ## Sanitization (claim C1) -/

theorem hexDigit_not_ctrl : ∀ m : Fin 16, isCtrlChar (hexDigit m.1) = false := by
  decide

theorem sanitizeChar_ctrlFree (c : Char) : ctrlFree (sanitizeChar c) := by
  intro c' hc'
  unfold sanitizeChar at hc'
  split_ifs at hc' with h1 h2 h3 h4 h5
  · simp only [List.mem_cons, List.not_mem_nil, or_false] at hc'
    rcases hc' with rfl | rfl <;> decide
  · simp only [List.mem_cons, List.not_mem_nil, or_false] at hc'
    rcases hc' with rfl | rfl <;> decide
  · simp only [List.mem_cons, List.not_mem_nil, or_false] at hc'
    rcases hc' with rfl | rfl <;> decide
  · simp only [List.mem_cons, List.not_mem_nil, or_false] at hc'
    rcases hc' with rfl | rfl | rfl | rfl
    · decide
    · decide
    · have hlt : c.toNat / 16 < 16 := Nat.div_lt_of_lt_mul (by omega)
      exact hexDigit_not_ctrl ⟨c.toNat / 16, hlt⟩
    · exact hexDigit_not_ctrl ⟨c.toNat % 16, Nat.mod_lt _ (by omega)⟩
  · exfalso
    unfold isCtrlChar at h4
    simp at h4
    omega
  · simp only [List.mem_cons, List.not_mem_nil, or_false] at hc'
    subst hc'
    simpa using h4

theorem sanitize_terminal_text_ctrlFree (s : List Char) :
    ctrlFree (sanitize_terminal_text s) := by
  intro c hc
  simp only [sanitize_terminal_text, List.mem_flatten, List.mem_map] at hc
  obtain ⟨l, ⟨c0, _hc0, rfl⟩, hmem⟩ := hc
  exact sanitizeChar_ctrlFree c0 c hmem

theorem sanitize_contains_token (s : List Char) (c : Char) (h : c ∈ s) :
    ∃ l r, sanitize_terminal_text s = l ++ sanitizeChar c ++ r := by
  induction s with
  | nil => cases h
  | cons x xs ih =>
    have hstep : sanitize_terminal_text (x :: xs) =
        sanitizeChar x ++ sanitize_terminal_text xs := by
      simp [sanitize_terminal_text]
    rcases List.mem_cons.mp h with rfl | hx
    · exact ⟨[], sanitize_terminal_text xs, by simp [hstep]⟩
    · obtain ⟨l, r, hlr⟩ := ih hx
      exact ⟨sanitizeChar x ++ l, r, by simp [hstep, hlr]⟩

theorem ctrlFree_append {a b : List Char} (ha : ctrlFree a) (hb : ctrlFree b) :
    ctrlFree (a ++ b) := by
  intro c hc
  rcases List.mem_append.mp hc with h | h
  · exact ha c h
  · exact hb c h

theorem entry_to_line_spans_ctrlFree (e : TreeEntry) (use_color : Bool)
    (changed : List (List (List Char))) :
    ∀ sp ∈ entry_to_line e use_color changed, sp = e.pfx ∨ ctrlFree sp := by
  have hsan := sanitize_terminal_text_ctrlFree
  have harrow : ctrlFree [' ', '-', '>', ' '] := by
    intro c hc; fin_cases hc <;> decide
  have hopen : ctrlFree [' ', '['] := by
    intro c hc; fin_cases hc <;> decide
  have hclose : ctrlFree [']'] := by
    intro c hc; fin_cases hc; decide
  intro sp hsp
  unfold entry_to_line at hsp
  simp only [List.mem_append] at hsp
  rcases hsp with hsp | hsp
  · left
    by_cases hp : e.pfx = []
    · simp [hp] at hsp
    · simp only [hp, if_false, ite_false, List.mem_singleton] at hsp
      exact hsp
  · right
    by_cases hch : (use_color && changed.contains e.path) = true
    · rw [if_pos hch] at hsp
      cases hsl : e.is_symlink <;> simp only [hsl] at hsp
      · simp only [Bool.false_eq_true, if_false, ite_false, List.append_nil,
          List.mem_singleton] at hsp
        subst hsp; exact hsan _
      · rcases htar : e.symlink_target with _ | t <;>
          simp only [htar, if_true, ite_true] at hsp
        · simp only [List.append_nil, List.mem_singleton] at hsp
          subst hsp; exact hsan _
        · simp only [List.mem_append, List.mem_singleton] at hsp
          rcases hsp with rfl | rfl
          · exact hsan _
          · exact ctrlFree_append harrow (hsan _)
    · rw [if_neg hch] at hsp
      rcases herr : e.error with _ | err <;> simp only [herr] at hsp
      · cases hsl : e.is_symlink <;> simp only [hsl] at hsp
        · simp only [Bool.false_eq_true, if_false, ite_false] at hsp
          split_ifs at hsp <;>
          · simp only [List.mem_singleton] at hsp
            subst hsp; exact hsan _
        · simp only [if_true, ite_true] at hsp
          rcases htar : e.symlink_target with _ | t <;>
            simp only [htar] at hsp
          · simp only [List.append_nil, List.mem_singleton] at hsp
            subst hsp; exact hsan _
          · simp only [List.mem_append, List.mem_singleton] at hsp
            rcases hsp with rfl | rfl
            · exact hsan _
            · exact ctrlFree_append harrow (hsan _)
      · simp only [List.mem_singleton] at hsp
        subst hsp
        exact ctrlFree_append
          (ctrlFree_append (ctrlFree_append (hsan _) hopen) (hsan _)) hclose

/-- Claim C1: the control-character sanitizer of the render pipeline yields
output with zero raw control characters, mapping newline, carriage
return and tab to their literal escape tokens and every other control
character (ESC included, code points ≤ `0xFF`) to a hex-escape token,
and the token of every input character appears in the output; in a
rendered entry line every span except the program-generated box-drawing
prefix is sanitizer output and hence control-character-free, for color
enabled and disabled alike, and the status-bar text is likewise
control-character-free. -/
theorem sanitizer_injection_safe :
    (∀ s, ctrlFree (sanitize_terminal_text s)) ∧
    (sanitizeChar '\n' = ['\\', 'n'] ∧ sanitizeChar '\r' = ['\\', 'r'] ∧
      sanitizeChar '\t' = ['\\', 't']) ∧
    (∀ c, isCtrlChar c = true → c ≠ '\n' → c ≠ '\r' → c ≠ '\t' →
      sanitizeChar c =
        ['\\', 'x', hexDigit (c.toNat / 16), hexDigit (c.toNat % 16)]) ∧
    (∀ s c, c ∈ s →
      ∃ l r, sanitize_terminal_text s = l ++ sanitizeChar c ++ r) ∧
    (∀ e use_color changed, ∀ sp ∈ entry_to_line e use_color changed,
      sp = e.pfx ∨ ctrlFree sp) ∧
    (∀ p i ts, ctrlFree (status_bar_line p i ts)) := by
  refine ⟨sanitize_terminal_text_ctrlFree, ⟨by decide, by decide, by decide⟩,
    ?_, sanitize_contains_token, entry_to_line_spans_ctrlFree, ?_⟩
  · intro c hctrl h1 h2 h3
    have hle : c.toNat ≤ 0xFF := by
      unfold isCtrlChar at hctrl
      simp at hctrl
      omega
    unfold sanitizeChar
    rw [if_neg h1, if_neg h2, if_neg h3, if_pos hctrl, if_pos hle]
  · intro p i ts
    have hw : ctrlFree " Watching: ".toList := by
      intro c hc; fin_cases hc <;> decide
    have hbar : ctrlFree "  |  ".toList := by
      intro c hc; fin_cases hc <;> decide
    have hlast : ctrlFree "Last change: ".toList := by
      intro c hc; fin_cases hc <;> decide
    have hnone : ctrlFree "No changes yet".toList := by
      intro c hc; fin_cases hc <;> decide
    unfold status_bar_line
    rcases ts with _ | ts <;>
      simp only <;>
      refine ctrlFree_append (ctrlFree_append (ctrlFree_append
        (ctrlFree_append (ctrlFree_append hw
          (sanitize_terminal_text_ctrlFree _)) hbar)
        (sanitize_terminal_text_ctrlFree _)) hbar) ?_
    · exact hnone
    · exact ctrlFree_append hlast (sanitize_terminal_text_ctrlFree _)

/-- Witness for C1: the hex-escape conjunct applied to the concrete
control character ESC (`0x1B`), whose hypotheses are discharged by
computation. -/
theorem sanitizer_injection_safe_witness :
    sanitizeChar '\x1b' = ['\\', 'x', '1', 'B'] := by
  have h := sanitizer_injection_safe.2.2.1 '\x1b' (by decide) (by decide)
    (by decide) (by decide)
  rw [h]
  decide

/-! ## Snapshot truncation (claim C2) -/

/-- Claim C2: with `max_entries = some n`, when the walk discovered more than
`n` entries the snapshot retains exactly the first `n` entries in final
order while `total_entries` is the true discovered count; and in every
build `entries.length ≤ total_entries`. -/
theorem build_snapshot_truncation :
    (∀ (discovered : List TreeEntry) (n : Nat), n < discovered.length →
      (build_snapshot discovered (some n)).entries = discovered.take n ∧
      (build_snapshot discovered (some n)).entries.length = n ∧
      (build_snapshot discovered (some n)).total_entries =
        discovered.length) ∧
    (∀ (discovered : List TreeEntry) (m : Option Nat),
      (build_snapshot discovered m).entries.length ≤
        (build_snapshot discovered m).total_entries) := by
  constructor
  · intro discovered n hn
    refine ⟨rfl, ?_, rfl⟩
    simp [build_snapshot, List.length_take]
    omega
  · intro discovered m
    rcases m with _ | n
    · simp [build_snapshot]
    · simp [build_snapshot, List.length_take]

/-- Witness for C2: the truncation conjunct applied to a concrete
three-entry list capped at two. -/
theorem build_snapshot_truncation_witness :
    (build_snapshot
        [⟨"a".toList, [], 1, true, false, none, false, [], none⟩,
         ⟨"b".toList, [], 1, true, false, none, false, [], none⟩,
         ⟨"c".toList, [], 1, true, false, none, true, [], none⟩]
        (some 2)).entries.length = 2 :=
  (build_snapshot_truncation.1 _ 2 (by decide)).2.1

/-! ## Highlight tracker (claims C3 and C5) -/

theorem mem_active_set_cons (entries : List (List (List Char) × Nat))
    (p : List (List Char)) (t0 now dur : Nat) :
    p ∈ (HighlightTracker.active_set
        ⟨(p, t0) :: entries.filter (fun e => e.1 != p), dur⟩ now).2 ↔
      now - t0 < dur := by
  unfold HighlightTracker.active_set
  constructor
  · intro hmem
    simp only [List.mem_map] at hmem
    obtain ⟨⟨k, i⟩, hki, hkp⟩ := hmem
    simp only at hkp
    subst hkp
    rw [List.mem_filter] at hki
    obtain ⟨hmem2, hlt⟩ := hki
    rcases List.mem_cons.mp hmem2 with heq | hmem3
    · have hit : i = t0 := by
        simpa using congrArg Prod.snd heq
      subst hit
      simpa using hlt
    · exfalso
      have hne := (List.mem_filter.mp hmem3).2
      simp at hne
  · intro h
    simp only [List.mem_map]
    refine ⟨(p, t0), ?_, rfl⟩
    rw [List.mem_filter]
    exact ⟨List.mem_cons_self _ _, by simpa using h⟩

/-- Claim C3: the tracker's TTL duration is runtime-adjustable: after
`set_duration d`, an `active_set` query decides liveness against `d`
(a path is active iff its last touch is younger than `d`), and after
`set_duration 0` the next `active_set` query returns the empty set, no
matter which paths were inserted and when. -/
theorem set_duration_governs_active_set :
    (∀ (t : HighlightTracker) (d now : Nat) (p : List (List Char)),
      p ∈ ((t.set_duration d).active_set now).2 ↔
        ∃ i, (p, i) ∈ t.entries ∧ now - i < d) ∧
    (∀ (t : HighlightTracker) (now : Nat),
      ((t.set_duration 0).active_set now).2 = []) := by
  constructor
  · intro t d now p
    unfold HighlightTracker.set_duration HighlightTracker.active_set
    simp only [List.mem_map, List.mem_filter]
    constructor
    · rintro ⟨⟨k, i⟩, ⟨hmem, hlt⟩, rfl⟩
      exact ⟨i, hmem, by simpa using hlt⟩
    · rintro ⟨i, hmem, hlt⟩
      exact ⟨(p, i), ⟨hmem, by simpa using hlt⟩, rfl⟩
  · intro t now
    unfold HighlightTracker.set_duration HighlightTracker.active_set
    simp

/-- Witness for C3: with duration set to 0, a freshly inserted path is
not active. -/
theorem set_duration_governs_active_set_witness :
    ((((HighlightTracker.new 3).insert [['a']] 5).set_duration 0).active_set
      5).2 = [] :=
  set_duration_governs_active_set.2 (((HighlightTracker.new 3).insert
    [['a']] 5)) 5

/-- Claim C5: after `insert p t₀`, the query `active_set (t₀ + Δ)` contains
`p` iff `Δ < duration`; and re-inserting `p` at `t₁` with
`t₀ < t₁ < t₀ + duration` resets the expiry clock: `p` is active at
every query instant strictly before `t₁ + duration` (latest touch wins,
not cumulative). -/
theorem highlight_ttl (t : HighlightTracker) (p : List (List Char))
    (t0 Δ : Nat) :
    (p ∈ ((t.insert p t0).active_set (t0 + Δ)).2 ↔ Δ < t.duration) ∧
    (∀ t1 q, t0 < t1 → t1 < t0 + t.duration → q < t1 + t.duration →
      p ∈ (((t.insert p t0).insert p t1).active_set q).2) := by
  constructor
  · rw [show t.insert p t0 =
      ⟨(p, t0) :: t.entries.filter (fun e => e.1 != p), t.duration⟩ from rfl]
    rw [mem_active_set_cons]
    omega
  · intro t1 q h01 h1d hqd
    have hdup : ((t.insert p t0).insert p t1) =
        ⟨(p, t1) :: t.entries.filter (fun e => e.1 != p), t.duration⟩ := by
      unfold HighlightTracker.insert
      simp [List.filter_filter]
    rw [hdup, mem_active_set_cons]
    omega

/-- Witness for C5: the reset conjunct at concrete instants — insert at
0, re-insert at 2 with duration 3, query at 4 (after the original
expiry, before the refreshed one). -/
theorem highlight_ttl_witness :
    [['a']] ∈ ((((HighlightTracker.new 3).insert [['a']] 0).insert
      [['a']] 2).active_set 4).2 :=
  (highlight_ttl (HighlightTracker.new 3) [['a']] 0 0).2 2 4 (by decide)
    (by decide) (by decide)

/-! ## Sibling ordering (claim C6) -/

/-- Claim C6: for any two siblings and for every model `lower` of the
external full-Unicode `str::to_lowercase`, the comparator orders a
directory before a non-directory; within equal kind a dot-prefixed name
orders after a non-dot name; and within equal kind and equal dot status
the order is case-insensitive lexicographic on the name — the
lexicographic comparison of the lowercased names.  Quantifying over
`lower` makes the statement hold in particular for the program's actual
Unicode lowercasing. -/
theorem sort_cmp_spec (lower : List Char → List Char) (a b : DirEntryInfo) :
    (a.is_dir = true → b.is_dir = false → sort_cmp_with lower a b = .lt) ∧
    (a.is_dir = false → b.is_dir = true → sort_cmp_with lower a b = .gt) ∧
    (a.is_dir = b.is_dir → startsWithDot a.name = true →
      startsWithDot b.name = false → sort_cmp_with lower a b = .gt) ∧
    (a.is_dir = b.is_dir → startsWithDot a.name = false →
      startsWithDot b.name = true → sort_cmp_with lower a b = .lt) ∧
    (a.is_dir = b.is_dir → startsWithDot a.name = startsWithDot b.name →
      sort_cmp_with lower a b = cmpChars (lower a.name) (lower b.name)) := by
  refine ⟨?_, ?_, ?_, ?_, ?_⟩ <;> intros <;> simp_all [sort_cmp_with]

/-- Witness for C6: the directory-before-file conjunct on two concrete
siblings, instantiated at a concrete lowercasing function. -/
theorem sort_cmp_spec_witness :
    sort_cmp_with asciiLower ⟨true, "zebra".toList⟩
      ⟨false, "apple".toList⟩ = .lt :=
  (sort_cmp_spec asciiLower ⟨true, "zebra".toList⟩
    ⟨false, "apple".toList⟩).1 rfl rfl

/-! ## Traversal error recovery (claim C8) -/

/-- Claim C8: an I/O error at non-root depth in the walk stream does not abort
collection (the collector is a total function): it yields a synthetic
entry at the offending path with `is_dir = true` and
`error = some msg`, and the items after the error are still collected
exactly as they would be on their own, so the remaining siblings appear
in the result. -/
theorem build_tree_error_recovery (dirs_only : Bool)
    (pre post : List WalkItem) (d : Nat)
    (pathOpt : Option (List (List Char))) (msg : List Char) (hd : 0 < d) :
    ∃ e, collect_entries dirs_only (pre ++ .err d pathOpt msg :: post) =
        collect_entries dirs_only pre ++ e ::
          collect_entries dirs_only post ∧
      e.is_dir = true ∧ e.error = some msg ∧ e.depth = d ∧
      e.path = pathOpt.getD [] := by
  refine ⟨⟨d, (pathOpt.getD []).getLast?.getD "???".toList, pathOpt.getD [],
    true, false, none, some msg⟩, ?_, rfl, rfl, rfl, rfl⟩
  unfold collect_entries
  rw [List.filterMap_append, List.filterMap_cons]
  have hstep : process_item dirs_only (.err d pathOpt msg) =
      some ⟨d, (pathOpt.getD []).getLast?.getD "???".toList, pathOpt.getD [],
        true, false, none, some msg⟩ := by
    simp only [process_item]
    rw [if_neg (by omega)]
  rw [hstep]

/-- Witness for C8: a three-item stream whose middle item is a
permission-denied error at depth 1; the collected result keeps both
neighbours and the synthetic entry. -/
theorem build_tree_error_recovery_witness :
    ∃ e, collect_entries false
        [.ok 1 "a".toList ["a".toList] true false none,
         .err 1 (some ["b".toList]) "denied".toList,
         .ok 1 "c".toList ["c".toList] false false none] =
      collect_entries false [.ok 1 "a".toList ["a".toList] true false none]
        ++ e :: collect_entries false
          [.ok 1 "c".toList ["c".toList] false false none] ∧
      e.is_dir = true ∧ e.error = some "denied".toList ∧ e.depth = 1 ∧
      e.path = (some ["b".toList]).getD [] :=
  build_tree_error_recovery false
    [.ok 1 "a".toList ["a".toList] true false none]
    [.ok 1 "c".toList ["c".toList] false false none]
    1 (some ["b".toList]) "denied".toList (by decide)

/-! ## Title truncation (claim C4)

The spec requires width-bounded truncation to operate on display-width
units over character boundaries, never raw byte offsets.
`truncate_middle` (src/main.rs lines 118-138) instead measures
`input.len()` in bytes and slices at byte offsets derived from it, so on
multi-byte input it can slice in the middle of a character, which
panics.  The theorem below exhibits a concrete panicking input: nine
copies of `α` (two UTF-8 bytes each, 18 bytes total) with
`max_cols = 8` put `prefix_len` at byte offset 3, the middle of the
second `α`. -/

/-- Claim C4 (refuting the claim as stated, supporting `code_bug`): on the
18-byte input `"ααααααααα"` with width bound 8, `truncate_middle`
slices at byte offset 3, which is not a character boundary: the Rust
code panics (modelled as `none`). -/
theorem truncate_middle_panics_on_multibyte :
    truncate_middle (List.replicate 9 'α') 8 = none := by
  rfl

/-! ## Scroll clamping (claim C9) -/

/-- Claim C9: after `update_total_and_clamp total view` the offset is at most
`max 0 (total - view)` (it is a `Nat`, hence `≥ 0` by type), and is 0
whenever `total ≤ view`; `scroll_up` is saturating subtraction and
`scroll_down` saturating addition (never above `USIZE_MAX`); and in the
concrete scenario `total = 100`, `view = 20`, `scroll_end` followed by
the clamp yields offset 80 and a further `scroll_up 5` yields 75. -/
theorem scroll_state_invariant :
    (∀ (s : ScrollState) (total view : Nat),
      (s.update_total_and_clamp total view).offset ≤ max 0 (total - view) ∧
      (total ≤ view → (s.update_total_and_clamp total view).offset = 0)) ∧
    (∀ (s : ScrollState) (n : Nat),
      (s.scroll_up n).offset = s.offset - n ∧
      (s.scroll_down n).offset = min (s.offset + n) USIZE_MAX ∧
      (s.scroll_down n).offset ≤ USIZE_MAX) ∧
    ((ScrollState.new.scroll_end.update_total_and_clamp 100 20).offset = 80 ∧
      ((ScrollState.new.scroll_end.update_total_and_clamp 100 20).scroll_up
        5).offset = 75) := by
  refine ⟨?_, ?_, by decide, by decide⟩
  · intro s total view
    simp only [ScrollState.update_total_and_clamp]
    constructor
    · rw [Nat.zero_max]
      split_ifs with h1 h2
      · simp
      · simp
        omega
      · simp
    · intro hle
      split_ifs with h1 h2 <;> simp_all
  · intro s n
    refine ⟨rfl, rfl, ?_⟩
    unfold ScrollState.scroll_down
    simp

/-- Witness for C9: the clamp-to-zero conjunct at `total = 10`,
`view = 20` from offset 5. -/
theorem scroll_state_invariant_witness :
    ((⟨5, 0⟩ : ScrollState).update_total_and_clamp 10 20).offset = 0 :=
  (scroll_state_invariant.1 ⟨5, 0⟩ 10 20).2 (by decide)

/-! ## Layout `is_last` uniqueness (claim C7) -/

theorem getD_drop_zero (l : List Nat) (i k : Nat) :
    (l.drop i).getD k 0 = l.getD (i + k) 0 := by
  induction l generalizing i k with
  | nil => simp
  | cons x xs ih =>
    cases i with
    | zero => simp
    | succ i' =>
      rw [List.drop_succ_cons, ih i' k]
      have : i' + 1 + k = (i' + k) + 1 := by omega
      rw [this, List.getD_cons_succ]

theorem isLastFrom_false_iff (d : Nat) (l : List Nat) :
    isLastFrom d l = false ↔
      ∃ k, k < l.length ∧ l.getD k 0 = d ∧ ∀ m < k, d < l.getD m 0 := by
  induction l with
  | nil => simp [isLastFrom]
  | cons x rest ih =>
    by_cases hx : x = d
    · rw [show isLastFrom d (x :: rest) = false from by
        simp [isLastFrom, hx]]
      simp only [eq_self_iff_true, true_iff]
      exact ⟨0, by simp, by simp [hx], by omega⟩
    · by_cases hlt : x < d
      · rw [show isLastFrom d (x :: rest) = true from by
          simp [isLastFrom, hx, hlt]]
        constructor
        · intro h; cases h
        · rintro ⟨k, hk, hke, hall⟩
          exfalso
          cases k with
          | zero => simp at hke; exact hx hke
          | succ k' =>
            have h0 := hall 0 (by omega)
            simp at h0
            omega
      · rw [show isLastFrom d (x :: rest) = isLastFrom d rest from by
          simp [isLastFrom, hx, hlt]]
        rw [ih]
        constructor
        · rintro ⟨k, hk, hke, hall⟩
          refine ⟨k + 1, by simp; omega, by simpa using hke, ?_⟩
          intro m hm
          cases m with
          | zero => simp; omega
          | succ m' =>
            rw [List.getD_cons_succ]
            exact hall m' (by omega)
        · rintro ⟨k, hk, hke, hall⟩
          cases k with
          | zero => simp at hke; exact absurd hke hx
          | succ k' =>
            refine ⟨k', by simp at hk; omega, by simpa using hke, ?_⟩
            intro m hm
            have := hall (m + 1) (by omega)
            simpa using this

theorem is_last_sibling_false_iff (ds : List Nat) (j : Nat) :
    is_last_sibling ds j = false ↔
      ∃ k, j < k ∧ k < ds.length ∧ ds.getD k 0 = ds.getD j 0 ∧
        ∀ m, j < m → m < k → ds.getD j 0 < ds.getD m 0 := by
  unfold is_last_sibling
  rw [isLastFrom_false_iff]
  constructor
  · rintro ⟨k, hk, hke, hall⟩
    rw [List.length_drop] at hk
    refine ⟨j + 1 + k, by omega, by omega, ?_, ?_⟩
    · rw [← getD_drop_zero]
      exact hke
    · intro m hm1 hm2
      have hmk : m - (j + 1) < k := by omega
      have := hall (m - (j + 1)) hmk
      rw [getD_drop_zero] at this
      have heq : j + 1 + (m - (j + 1)) = m := by omega
      rw [heq] at this
      exact this
  · rintro ⟨k, hjk, hklen, hke, hall⟩
    refine ⟨k - (j + 1), ?_, ?_, ?_⟩
    · rw [List.length_drop]; omega
    · rw [getD_drop_zero]
      have heq : j + 1 + (k - (j + 1)) = k := by omega
      rw [heq]
      exact hke
    · intro m hm
      rw [getD_drop_zero]
      exact hall (j + 1 + m) (by omega) (by omega)

/-- Claim C7: for every depth-annotated flattened pre-order sequence and every
index `i`, exactly one index of `i`'s sibling group carries
`is_last_sibling = true` under the forward-scan assignment. -/
theorem exactly_one_last_per_group (ds : List Nat) (i : Nat)
    (hi : i < ds.length) :
    ∃! j, sameGroup ds i j ∧ is_last_sibling ds j = true := by
  have hiG : sameGroup ds i i :=
    ⟨hi, hi, rfl, by intro k hk1 hk2; omega⟩
  let S : Finset ℕ := (Finset.range ds.length).filter (sameGroup ds i)
  have hmemS : ∀ y, y ∈ S ↔ sameGroup ds i y := by
    intro y
    constructor
    · intro hy; exact (Finset.mem_filter.mp hy).2
    · intro hy
      exact Finset.mem_filter.mpr ⟨Finset.mem_range.mpr hy.2.1, hy⟩
  have hne : S.Nonempty := ⟨i, (hmemS i).mpr hiG⟩
  set j := S.max' hne with hjdef
  have hjG : sameGroup ds i j := (hmemS j).mp (S.max'_mem hne)
  have hmax : ∀ y, sameGroup ds i y → y ≤ j := by
    intro y hy
    exact S.le_max' y ((hmemS y).mpr hy)
  have hij : i ≤ j := hmax i hiG
  have hjlen : j < ds.length := hjG.2.1
  have hjd : ds.getD j 0 = ds.getD i 0 := hjG.2.2.1.symm
  have hjiv := hjG.2.2.2
  rw [Nat.max_eq_right hij, Nat.min_eq_left hij] at hjiv
  -- the maximal group member is last
  have hlast : is_last_sibling ds j = true := by
    by_contra hfalse
    rw [Bool.not_eq_true] at hfalse
    obtain ⟨k, hjk, hklen, hke, hkall⟩ :=
      (is_last_sibling_false_iff ds j).mp hfalse
    have hik : i < k := by omega
    have hkG : sameGroup ds i k := by
      refine ⟨hi, hklen, by rw [hke, hjd], ?_⟩
      intro m hm1 hm2
      rw [Nat.max_eq_right (Nat.le_of_lt hik)] at hm1
      rw [Nat.min_eq_left (Nat.le_of_lt hik)] at hm2
      rcases Nat.lt_trichotomy m j with hmj | hmj | hmj
      · exact hjiv m hmj hm2
      · rw [hmj, hjd]
      · have := hkall m hmj hm1
        rw [hjd] at this
        omega
    have := hmax k hkG
    omega
  -- any other group member is not last
  have huniq : ∀ y, sameGroup ds i y ∧ is_last_sibling ds y = true →
      y = j := by
    rintro y ⟨hyG, hylast⟩
    have hyj : y ≤ j := hmax y hyG
    rcases Nat.eq_or_lt_of_le hyj with heq | hltj
    · exact heq
    exfalso
    have hdy : ds.getD y 0 = ds.getD i 0 := hyG.2.2.1.symm
    have hex : ∃ t, y < t ∧ t ≤ j ∧ ds.getD t 0 ≤ ds.getD i 0 :=
      ⟨j, hltj, Nat.le_refl _, Nat.le_of_eq hjd⟩
    obtain ⟨hyk, hkj, hkle⟩ := Nat.find_spec hex
    set k := Nat.find hex with hkdef
    have hkmin : ∀ m, m < k →
        ¬(y < m ∧ m ≤ j ∧ ds.getD m 0 ≤ ds.getD i 0) :=
      fun m hm => Nat.find_min hex hm
    have hyiv := hyG.2.2.2
    have hiy : y < i ∨ i < y ∨ i = y := by omega
    have hmid : ∀ m, y < m → m ≠ i → m < j →
        ds.getD i 0 ≤ ds.getD m 0 := by
      intro m hm1 hmi hmj
      rcases Nat.lt_or_ge m i with hmi' | hmi'
      · -- y < m < i : the (i, y) interval of hyG
        have hyi : y < i := by omega
        have h := hyG.2.2.2 m
        rw [Nat.max_eq_left (Nat.le_of_lt hyi)] at h
        rw [Nat.min_eq_right (Nat.le_of_lt hyi)] at h
        exact h hmi' hm1
      · -- i < m < j : the (i, j) interval
        have him : i < m := by omega
        exact hjiv m hmj him
    have hkd : ds.getD k 0 = ds.getD i 0 := by
      refine Nat.le_antisymm hkle ?_
      rcases Nat.eq_or_lt_of_le hkj with hkj' | hkj'
      · rw [hkj', hjd]
      · rcases eq_or_ne k i with hki | hki
        · rw [hki]
        · exact hmid k hyk hki hkj'
    have hall : ∀ m, y < m → m < k → ds.getD y 0 < ds.getD m 0 := by
      intro m hm1 hm2
      have hnot := hkmin m hm2
      rw [hdy]
      by_contra hc
      push_neg at hc
      exact hnot ⟨hm1, by omega, hc⟩
    have : is_last_sibling ds y = false :=
      (is_last_sibling_false_iff ds y).mpr
        ⟨k, hyk, by omega, by rw [hkd, hdy], hall⟩
    rw [hylast] at this
    cases this
  exact ⟨j, ⟨hjG, hlast⟩, huniq⟩

/-- Witness for C7: the unique last sibling of the group of index 0 in
the concrete depth sequence `[1, 2, 2, 1]`. -/
theorem exactly_one_last_per_group_witness :
    ∃! j, sameGroup [1, 2, 2, 1] 0 j ∧
      is_last_sibling [1, 2, 2, 1] j = true :=
  exactly_one_last_per_group [1, 2, 2, 1] 0 (by decide)

/-! ## Default ignore patterns and traversal pruning (claim C10) -/

theorem mem_insertSorted {x a : FsTree} :
    ∀ {l : List FsTree}, a ∈ insertSorted x l ↔ a = x ∨ a ∈ l := by
  intro l
  induction l with
  | nil => simp [insertSorted]
  | cons y ys ih =>
    unfold insertSorted
    split_ifs
    · rw [List.mem_cons, ih, List.mem_cons]
      tauto
    · simp [List.mem_cons]

theorem mem_sortChildren {a : FsTree} :
    ∀ {l : List FsTree}, a ∈ sortChildren l ↔ a ∈ l := by
  intro l
  induction l with
  | nil => simp [sortChildren]
  | cons x xs ih =>
    show a ∈ insertSorted x (sortChildren xs) ↔ _
    rw [mem_insertSorted, ih, List.mem_cons]

theorem leadsTo_concat {q r : List (List Char)} {n : List Char}
    (h : leadsTo q (r ++ [n])) : leadsTo q r ∨ q = r ++ [n] := by
  obtain ⟨s, hs⟩ := h
  rcases List.eq_nil_or_concat s with rfl | ⟨s', a, rfl⟩
  · right; simpa using hs
  · left
    rw [List.concat_eq_append, ← List.append_assoc] at hs
    obtain ⟨h1, h2⟩ := List.append_inj' hs rfl
    exact ⟨s', h1⟩

theorem walk_node_filter_inv (cfg : WalkConfig) :
    ∀ (fuel depth : Nat) (relPath : List (List Char)) (t : FsTree),
      (∀ q n, leadsTo (q ++ [n]) relPath →
        filter_entry cfg n (q ++ [n]) = true) →
      ∀ e ∈ walk_node cfg fuel depth relPath t,
        ∀ q n, leadsTo (q ++ [n]) e.relPath →
          filter_entry cfg n (q ++ [n]) = true := by
  intro fuel
  induction fuel with
  | zero =>
    intro depth relPath t hanc e he
    simp [walk_node] at he
  | succ fuel ih =>
    intro depth relPath t hanc e he q n hqn
    obtain ⟨name, is_dir, children⟩ := t
    simp only [walk_node] at he
    rcases List.mem_cons.mp he with rfl | he2
    · exact hanc q n hqn
    · by_cases hcond : (is_dir && depthOk cfg depth) = true
      · rw [if_pos hcond] at he2
        simp only [List.mem_flatten, List.mem_map] at he2
        obtain ⟨l, ⟨c, hc, rfl⟩, hel⟩ := he2
        by_cases hf :
            filter_entry cfg c.nameOf (relPath ++ [c.nameOf]) = true
        · rw [if_pos hf] at hel
          refine ih (depth + 1) (relPath ++ [c.nameOf]) c ?_ e hel q n hqn
          intro q' n' hq'
          rcases leadsTo_concat hq' with h | h
          · exact hanc q' n' h
          · obtain ⟨h1, h2⟩ := List.append_inj' h rfl
            have h3 : n' = c.nameOf := by simpa using h2
            rw [h1, h3]
            exact hf
        · rw [if_neg hf] at hel
          simp at hel
      · rw [if_neg hcond] at he2
        simp at he2

/-- Counterexample for C10 as stated: with no user patterns and default
configuration, `build_tree` does *not* exclude a `node_modules`
directory nested below the top level — the default literal globs match
only the root-relative path that equals the pattern text, so
`sub/node_modules` survives the filter and is descended into. -/
theorem default_ignores_counterexample :
    ((build_tree ⟨none, false, false, build_ignore_set []⟩
        (.node "root".toList true
          [.node "sub".toList true
            [.node "node_modules".toList true []]])).map
      (fun e => e.name)).contains "node_modules".toList = true := by
  rfl

/-- Claim C10 (amended): the glob set built by `build_ignore_set` matches each
built-in default name as a root-relative path for every user pattern
list (the empty list included); every entry that `build_tree` emits has
all of its non-empty ancestor paths (itself included) accepted by the
`filter_entry` predicate; hence, when the ignore set is built by
`build_ignore_set`, no emitted entry is a direct child of the root named
`.git`, `node_modules`, `__pycache__` or `.DS_Store`, nor a descendant
of such a child — the walk never descends into them. -/
theorem default_ignores_amended :
    (∀ user, ∀ d ∈ DEFAULT_IGNORES,
      matchesIgnore (build_ignore_set user) [d] = true) ∧
    (∀ cfg root, ∀ e ∈ build_tree cfg root,
      ∀ q n, leadsTo (q ++ [n]) e.relPath →
        filter_entry cfg n (q ++ [n]) = true) ∧
    (∀ user (cfg : WalkConfig),
      cfg.ignore_patterns = build_ignore_set user →
      ∀ root, ∀ e ∈ build_tree cfg root, ∀ d ∈ DEFAULT_IGNORES,
        ¬leadsTo [d] e.relPath) := by
  have hmatch : ∀ user, ∀ d ∈ DEFAULT_IGNORES,
      matchesIgnore (build_ignore_set user) [d] = true := by
    intro user d hd
    unfold matchesIgnore build_ignore_set
    rw [List.any_eq_true]
    refine ⟨litGlob d, ?_, ?_⟩
    · rw [List.mem_append]
      exact Or.inl (List.mem_map.mpr ⟨d, hd, rfl⟩)
    · simp [litGlob, pathString]
  have hinv : ∀ cfg root, ∀ e ∈ build_tree cfg root,
      ∀ q n, leadsTo (q ++ [n]) e.relPath →
        filter_entry cfg n (q ++ [n]) = true := by
    intro cfg root e he q n hqn
    unfold build_tree at he
    have he' : e ∈ walk_node cfg root.height 0 [] root :=
      (List.mem_filter.mp he).1
    refine walk_node_filter_inv cfg root.height 0 [] root ?_ e he' q n hqn
    intro q' n' hq'
    obtain ⟨r, hr⟩ := hq'
    exact absurd hr (by simp)
  refine ⟨hmatch, hinv, ?_⟩
  intro user cfg hcfg root e he d hd hlead
  have h := hinv cfg root e he [] d (by simpa using hlead)
  rw [List.nil_append] at h
  unfold filter_entry at h
  rw [hcfg] at h
  have hm := hmatch user d hd
  rw [hm] at h
  simp at h

/-- Witness for C10 (amended): the default `.git` pattern matches the
root-relative path `.git` with an empty user pattern list. -/
theorem default_ignores_amended_witness :
    matchesIgnore (build_ignore_set []) [".git".toList] = true :=
  default_ignores_amended.1 [] ".git".toList (by decide)

end LiveTree
